import Mathlib

/-!
Shallow embedding of `partition_voronoi` from the repository
"Divide-an-array-of-numbers-using-the-Voronoi-algorithm"
(`src/unnamed/part_000`; the two GUI files carry the same function).

Numbers are modelled as rationals.  The process-wide random source used by
`random.uniform(lo, hi)` is modelled as an explicit stream `draws : Nat → ℚ`
of unit-interval draws, with `random.uniform lo hi` embedded as
`lo + (hi - lo) * draws i` (CPython computes exactly this expression; in the
second GUI file the degenerate case `lo == hi` is special-cased to `lo`,
which coincides with the formula since `hi - lo = 0`).

A Python exception (`ValueError` for `n_seeds <= 0`) is modelled by the
function returning `none`.
-/

namespace Voronoi

/-- The running scan of `np.argmin` over the distance row
`np.abs(arr[i] - seeds)`: `i` is the index of the next element of `rest`
inside the full seed list, `best` the index of the current minimum and
`bestd` its distance; the current minimum is replaced only on a strictly
smaller distance, so the first minimum encountered wins. -/
def argminAux (v : ℚ) : List ℚ → Nat → Nat → ℚ → Nat
  | [], _, best, _ => best
  | s :: rest, i, best, bestd =>
    if |v - s| < bestd then argminAux v rest (i + 1) i |v - s|
    else argminAux v rest (i + 1) best bestd

/-- One row of `np.abs(arr[:, None] - seeds[None, :]).argmin(axis=1)`:
the index of the first seed at minimal absolute distance from `v`. -/
def argminAbs (v : ℚ) : List ℚ → Nat
  | [] => 0
  | s :: rest => argminAux v rest 1 0 |v - s|

/-- `arr.min()` for a (nonempty) value list; `0` as a junk value on `[]`. -/
def listMin : List ℚ → ℚ
  | [] => 0
  | x :: xs => xs.foldl min x

/-- `arr.max()` for a (nonempty) value list; `0` as a junk value on `[]`. -/
def listMax : List ℚ → ℚ
  | [] => 0
  | x :: xs => xs.foldl max x

/-- `members.mean()`: the arithmetic mean of a list (junk `0` on `[]`,
never reached by the guarded call sites). -/
def mean (l : List ℚ) : ℚ := l.sum / (l.length : ℚ)

/-- `np.quantile(sorted_vals, p)` with the default linear interpolation:
virtual index `h = p * (m - 1)`, result
`sorted[⌊h⌋] + (h - ⌊h⌋) * (sorted[⌊h⌋ + 1] - sorted[⌊h⌋])`
(upper index clamped to `m - 1`). -/
def npQuantile (sorted : List ℚ) (p : ℚ) : ℚ :=
  let m := sorted.length
  let h := p * ((m : ℚ) - 1)
  let i := (⌊h⌋).toNat
  let g := h - (i : ℚ)
  sorted.getD i 0 + g * (sorted.getD (min (i + 1) (m - 1)) 0 - sorted.getD i 0)

/-- Seed initialization (`values` nonempty at every call site).
`"quantile"`: seeds at the `n` interior points of
`np.linspace(0, 1, n + 2)`, i.e. probabilities `(i+1)/(n+1)`, of the sorted
data.  Anything else falls through to the `"random"` branch: `n` draws of
`random.uniform(arr.min(), arr.max())`. -/
def initSeeds (values : List ℚ) (n : Nat) (init_method : String)
    (draws : Nat → ℚ) : List ℚ :=
  if init_method = "quantile" then
    let sorted := List.insertionSort (· ≤ ·) values
    (List.range n).map fun (i : Nat) =>
      npQuantile sorted (((i : ℚ) + 1) / ((n : ℚ) + 1))
  else
    let lo := listMin values
    let hi := listMax values
    (List.range n).map fun i => lo + (hi - lo) * draws i

/-- `members = arr[idx == s]`: the values whose nearest seed (first minimum)
is seed `s`, in input order. -/
def voronoiMembers (arr seeds : List ℚ) (s : Nat) : List ℚ :=
  arr.filter fun v => argminAbs v seeds == s

/-- `new_seeds` after one Lloyd pass: seed `s` is recentred to the mean of
its members when it has any, otherwise kept (`new_seeds = seeds.copy()`
touched only at nonempty regions). -/
def lloydNewSeeds (arr seeds : List ℚ) : List ℚ :=
  (List.range seeds.length).map fun s =>
    let m := voronoiMembers arr seeds s
    if m.isEmpty then seeds.getD s 0 else mean m

/-- The `moved` flag of one Lloyd pass: some seed with a nonempty region
got a new position different from its previous one. -/
def lloydMoved (arr seeds : List ℚ) : Bool :=
  (List.range seeds.length).any fun s =>
    let m := voronoiMembers arr seeds s
    !m.isEmpty && decide (mean m ≠ seeds.getD s 0)

/-- The `for _ in range(int(lloyd_iters))` loop: each pass replaces the
seeds by `lloydNewSeeds`, and the loop breaks after a pass whose `moved`
flag is false. -/
def lloydIter (arr : List ℚ) : Nat → List ℚ → List ℚ
  | 0, seeds => seeds
  | k + 1, seeds =>
    let ns := lloydNewSeeds arr seeds
    if lloydMoved arr seeds then lloydIter arr k ns else ns

/-- The final cluster build: starting from `n` empty lists, walk the
original values with their assigned indices and append each value to its
cluster (`clusters[int(k)].append(val)`). -/
def buildClusters (n : Nat) (pairs : List (ℚ × Nat)) : List (List ℚ) :=
  pairs.foldl (fun cls p => cls.set p.2 (cls.getD p.2 [] ++ [p.1]))
    (List.replicate n [])

/-- `partition_voronoi(values, n_seeds, lloyd_iters, init_method)`.
`none` models the `ValueError` raised for `n_seeds <= 0`; otherwise the
pair `(clusters, seeds)` is returned.  `lloyd_iters` may be negative
(`range` of it is then empty, exactly as `Int.toNat` clamps to `0`). -/
def partition_voronoi (values : List ℚ) (n_seeds lloyd_iters : ℤ)
    (init_method : String) (draws : Nat → ℚ) :
    Option (List (List ℚ) × List ℚ) :=
  if n_seeds ≤ 0 then none
  else if values.length = 0 then some (List.replicate n_seeds.toNat [], [])
  else
    let seeds0 := initSeeds values n_seeds.toNat init_method draws
    let seeds := lloydIter values lloyd_iters.toNat seeds0
    let idx := values.map fun v => argminAbs v seeds
    some (buildClusters n_seeds.toNat (values.zip idx), seeds)

/-! ### Basic list helpers -/

lemma getD_set_self (l : List α) (i : Nat) (a d : α) (h : i < l.length) :
    (l.set i a).getD i d = a := by
  simp [List.getD_eq_getElem?_getD, List.getElem?_set_self, h]

lemma getD_set_ne (l : List α) {i j : Nat} (a d : α) (h : i ≠ j) :
    (l.set i a).getD j d = l.getD j d := by
  simp [List.getD_eq_getElem?_getD, List.getElem?_set_ne h]

lemma getD_replicate {n i : Nat} (a d : α) (h : i < n) :
    (List.replicate n a).getD i d = a := by
  rw [List.getD_eq_getElem _ _ (by simpa using h)]
  simp

lemma getD_range_map (g : Nat → α) {n i : Nat} (d : α) (h : i < n) :
    ((List.range n).map g).getD i d = g i := by
  rw [List.getD_eq_getElem _ _ (by simpa using h)]
  simp

lemma zip_map_self (l : List ℚ) (f : ℚ → Nat) :
    l.zip (l.map f) = l.map fun v => (v, f v) := by
  induction l with
  | nil => rfl
  | cons a t ih => simp [ih]

lemma card_finset_sum (s : Finset Nat) (f : Nat → Multiset ℚ) :
    (∑ x ∈ s, f x).card = ∑ x ∈ s, (f x).card := by
  classical
  induction s using Finset.induction with
  | empty => simp
  | insert h ih => simp [Finset.sum_insert h, ih]

/-! ### The argmin scan -/

lemma argminAux_spec (v : ℚ) (rest : List ℚ) :
    ∀ (seeds : List ℚ) (i best : Nat) (bestd : ℚ),
      i + rest.length = seeds.length →
      (∀ k, rest.getD k 0 = seeds.getD (i + k) 0) →
      best < i →
      bestd = |v - seeds.getD best 0| →
      (∀ j, j < i → bestd ≤ |v - seeds.getD j 0|) →
      (∀ j, j < best → bestd < |v - seeds.getD j 0|) →
      argminAux v rest i best bestd < seeds.length ∧
      (∀ j, j < seeds.length →
        |v - seeds.getD (argminAux v rest i best bestd) 0| ≤ |v - seeds.getD j 0|) ∧
      (∀ j, j < argminAux v rest i best bestd →
        |v - seeds.getD (argminAux v rest i best bestd) 0| < |v - seeds.getD j 0|) := by
  induction rest with
  | nil =>
    intro seeds i best bestd hlen hshift hbi hbd hmin hstrict
    simp only [List.length_nil, Nat.add_zero] at hlen
    simp only [argminAux]
    refine ⟨by omega, ?_, ?_⟩
    · intro j hj
      rw [← hbd]
      exact hmin j (by omega)
    · intro j hj
      rw [← hbd]
      exact hstrict j hj
  | cons s rest ih =>
    intro seeds i best bestd hlen hshift hbi hbd hmin hstrict
    have hs : s = seeds.getD i 0 := by simpa using hshift 0
    have hlen' : (i + 1) + rest.length = seeds.length := by
      simp only [List.length_cons] at hlen
      omega
    have hshift' : ∀ k, rest.getD k 0 = seeds.getD ((i + 1) + k) 0 := by
      intro k
      have := hshift (k + 1)
      simpa [Nat.add_assoc, Nat.add_comm 1 k] using this
    simp only [argminAux]
    by_cases hlt : |v - s| < bestd
    · rw [if_pos hlt]
      apply ih seeds (i + 1) i |v - s| hlen' hshift' (by omega) (by rw [hs])
      · intro j hj
        rcases (by omega : j < i ∨ j = i) with h | h
        · exact le_of_lt (lt_of_lt_of_le hlt (hmin j h))
        · subst h
          rw [← hs]
      · intro j hj
        exact lt_of_lt_of_le hlt (hmin j hj)
    · rw [if_neg hlt]
      push_neg at hlt
      apply ih seeds (i + 1) best bestd hlen' hshift' (by omega) hbd
      · intro j hj
        rcases (by omega : j < i ∨ j = i) with h | h
        · exact hmin j h
        · subst h
          rw [← hs]
          exact hlt
      · exact hstrict

lemma argminAbs_spec (v : ℚ) (seeds : List ℚ) (h : seeds ≠ []) :
    argminAbs v seeds < seeds.length ∧
    (∀ j, j < seeds.length →
      |v - seeds.getD (argminAbs v seeds) 0| ≤ |v - seeds.getD j 0|) ∧
    (∀ j, j < argminAbs v seeds →
      |v - seeds.getD (argminAbs v seeds) 0| < |v - seeds.getD j 0|) := by
  match seeds, h with
  | s :: rest, _ =>
    simp only [argminAbs]
    apply argminAux_spec v rest (s :: rest) 1 0 |v - s| (by simp [Nat.add_comm])
    · intro k
      simp [Nat.add_comm 1 k]
    · omega
    · simp
    · intro j hj
      have : j = 0 := by omega
      subst this
      simp
    · intro j hj
      omega

lemma argminAbs_lt (v : ℚ) (seeds : List ℚ) (h : seeds ≠ []) :
    argminAbs v seeds < seeds.length :=
  (argminAbs_spec v seeds h).1

/-! ### One Lloyd pass and the iteration -/

lemma lloydNewSeeds_length (arr seeds : List ℚ) :
    (lloydNewSeeds arr seeds).length = seeds.length := by
  simp [lloydNewSeeds]

lemma getD_lloydNewSeeds (arr seeds : List ℚ) {s : Nat} (hs : s < seeds.length) :
    (lloydNewSeeds arr seeds).getD s 0 =
      if (voronoiMembers arr seeds s).isEmpty then seeds.getD s 0
      else mean (voronoiMembers arr seeds s) :=
  getD_range_map _ _ hs

lemma lloydMoved_eq_false_iff (arr seeds : List ℚ) :
    lloydMoved arr seeds = false ↔ lloydNewSeeds arr seeds = seeds := by
  have hlen := lloydNewSeeds_length arr seeds
  constructor
  · intro h
    have H : ∀ s, s < seeds.length →
        ¬((voronoiMembers arr seeds s).isEmpty = false ∧
          mean (voronoiMembers arr seeds s) ≠ seeds.getD s 0) := by
      intro s hs
      have := (List.any_eq_false).mp h s (List.mem_range.mpr hs)
      simpa [Bool.and_eq_true, Bool.not_eq_true'] using this
    apply List.ext_getElem (by simpa using hlen)
    intro i h1 h2
    have hi : i < seeds.length := h2
    have key : (lloydNewSeeds arr seeds).getD i 0 = seeds.getD i 0 := by
      rw [getD_lloydNewSeeds arr seeds hi]
      by_cases he : (voronoiMembers arr seeds i).isEmpty
      · rw [if_pos he]
      · rw [if_neg he]
        have := H i hi
        by_contra hne
        exact this ⟨by simpa using he, hne⟩
    rwa [List.getD_eq_getElem _ _ h1, List.getD_eq_getElem _ _ h2] at key
  · intro h
    apply List.any_eq_false.mpr
    intro s hsmem
    have hs : s < seeds.length := List.mem_range.mp hsmem
    simp only [Bool.and_eq_true, Bool.not_eq_true', decide_eq_true_eq, not_and]
    intro he hne
    have : (lloydNewSeeds arr seeds).getD s 0 = seeds.getD s 0 := by rw [h]
    rw [getD_lloydNewSeeds arr seeds hs, if_neg (by simp [he])] at this
    exact hne this

lemma lloydIter_fixed (arr seeds : List ℚ) (h : lloydMoved arr seeds = false) :
    ∀ k, lloydIter arr k seeds = seeds := by
  intro k
  cases k with
  | zero => rfl
  | succ k =>
    simp only [lloydIter, h, if_neg Bool.false_ne_true]
    exact (lloydMoved_eq_false_iff arr seeds).mp h

lemma lloydIter_length (arr : List ℚ) :
    ∀ (k : Nat) (seeds : List ℚ), (lloydIter arr k seeds).length = seeds.length := by
  intro k
  induction k with
  | zero => intro seeds; rfl
  | succ k ih =>
    intro seeds
    simp only [lloydIter]
    by_cases h : lloydMoved arr seeds
    · rw [if_pos h, ih, lloydNewSeeds_length]
    · rw [if_neg h, lloydNewSeeds_length]

/-! ### The cluster build -/

lemma buildClusters_foldl_length :
    ∀ (pairs : List (ℚ × Nat)) (cls : List (List ℚ)),
      (pairs.foldl (fun c p => c.set p.2 (c.getD p.2 [] ++ [p.1])) cls).length
        = cls.length := by
  intro pairs
  induction pairs with
  | nil => intro cls; rfl
  | cons p t ih =>
    intro cls
    simp only [List.foldl_cons]
    rw [ih, List.length_set]

lemma buildClusters_length (n : Nat) (pairs : List (ℚ × Nat)) :
    (buildClusters n pairs).length = n := by
  unfold buildClusters
  rw [buildClusters_foldl_length, List.length_replicate]

lemma buildClusters_core (f : ℚ → Nat) :
    ∀ (l : List ℚ) (cls : List (List ℚ)) (s : Nat), s < cls.length →
      (l.foldl (fun c v => c.set (f v) (c.getD (f v) [] ++ [v])) cls).getD s []
        = cls.getD s [] ++ l.filter (fun v => f v == s) := by
  intro l
  induction l with
  | nil =>
    intro cls s _
    simp
  | cons v l ih =>
    intro cls s hs
    simp only [List.foldl_cons]
    rw [ih (cls.set (f v) (cls.getD (f v) [] ++ [v])) s (by simpa using hs)]
    by_cases hv : f v = s
    · subst hv
      rw [getD_set_self _ _ _ _ (by omega)]
      simp [List.filter_cons]
    · rw [getD_set_ne _ _ _ hv]
      have : (f v == s) = false := by simpa using hv
      simp [List.filter_cons, this]

lemma buildClusters_zip_getD (f : ℚ → Nat) (n : Nat) (values : List ℚ)
    {s : Nat} (hs : s < n) :
    (buildClusters n (values.zip (values.map f))).getD s []
      = values.filter (fun v => f v == s) := by
  unfold buildClusters
  rw [zip_map_self values f, List.foldl_map]
  have := buildClusters_core f values (List.replicate n []) s (by simpa using hs)
  simpa [getD_replicate _ _ hs] using this

/-! ### Partition of the input across the clusters -/

lemma filter_partition_multiset (f : ℚ → Nat) (n : Nat) :
    ∀ (l : List ℚ), (∀ v ∈ l, f v < n) →
      ∑ s ∈ Finset.range n, ((l.filter fun v => f v == s : List ℚ) : Multiset ℚ)
        = (l : Multiset ℚ) := by
  intro l
  induction l with
  | nil => simp
  | cons v l ih =>
    intro h
    have hv : f v < n := h v (List.mem_cons_self v l)
    have hl : ∀ w ∈ l, f w < n := fun w hw => h w (List.mem_cons_of_mem v hw)
    have step : ∀ s : Nat,
        (((v :: l).filter fun w => f w == s : List ℚ) : Multiset ℚ)
          = (if f v = s then ({v} : Multiset ℚ) else 0)
            + ((l.filter fun w => f w == s : List ℚ) : Multiset ℚ) := by
      intro s
      by_cases hsv : f v = s
      · simp [List.filter_cons, hsv]
      · simp [List.filter_cons, hsv]
    rw [Finset.sum_congr rfl fun s _ => step s, Finset.sum_add_distrib, ih hl,
      Finset.sum_ite_eq (Finset.range n) (f v) fun _ => ({v} : Multiset ℚ)]
    simp [Finset.mem_range, hv]

/-! ### Unfolding partition_voronoi -/

lemma initSeeds_length (values : List ℚ) (n : Nat) (m : String) (d : Nat → ℚ) :
    (initSeeds values n m d).length = n := by
  unfold initSeeds
  split <;> simp only [List.length_map, List.length_range]

lemma partition_voronoi_pos (values : List ℚ) (n l : ℤ) (m : String) (d : Nat → ℚ)
    (hn : ¬n ≤ 0) (hv : values.length ≠ 0) :
    partition_voronoi values n l m d =
      some (buildClusters n.toNat
              (values.zip (values.map fun v =>
                argminAbs v (lloydIter values l.toNat (initSeeds values n.toNat m d)))),
            lloydIter values l.toNat (initSeeds values n.toNat m d)) := by
  simp [partition_voronoi, hn, hv]

lemma partition_voronoi_isSome (values : List ℚ) (n l : ℤ) (m : String)
    (d : Nat → ℚ) (hn : ¬n ≤ 0) :
    (partition_voronoi values n l m d).isSome = true := by
  by_cases hv : values.length = 0
  · simp [partition_voronoi, hn, hv]
  · rw [partition_voronoi_pos values n l m d hn hv]
    rfl

/-! ### All-equal inputs (degenerate random initialization) -/

lemma foldl_min_const (c : ℚ) :
    ∀ (xs : List ℚ), (∀ v ∈ xs, v = c) → xs.foldl min c = c := by
  intro xs
  induction xs with
  | nil => intro _; rfl
  | cons x t ih =>
    intro h
    have hx : x = c := h x (List.mem_cons_self x t)
    rw [List.foldl_cons, hx, min_self]
    exact ih fun v hv => h v (List.mem_cons_of_mem x hv)

lemma foldl_max_const (c : ℚ) :
    ∀ (xs : List ℚ), (∀ v ∈ xs, v = c) → xs.foldl max c = c := by
  intro xs
  induction xs with
  | nil => intro _; rfl
  | cons x t ih =>
    intro h
    have hx : x = c := h x (List.mem_cons_self x t)
    rw [List.foldl_cons, hx, max_self]
    exact ih fun v hv => h v (List.mem_cons_of_mem x hv)

lemma listMin_const (values : List ℚ) (c : ℚ) (hv : values ≠ [])
    (hall : ∀ v ∈ values, v = c) : listMin values = c := by
  match values, hv with
  | x :: xs, _ =>
    have hx : x = c := hall x (List.mem_cons_self x xs)
    simp only [listMin, hx]
    exact foldl_min_const c xs fun v hv' => hall v (List.mem_cons_of_mem x hv')

lemma listMax_const (values : List ℚ) (c : ℚ) (hv : values ≠ [])
    (hall : ∀ v ∈ values, v = c) : listMax values = c := by
  match values, hv with
  | x :: xs, _ =>
    have hx : x = c := hall x (List.mem_cons_self x xs)
    simp only [listMax, hx]
    exact foldl_max_const c xs fun v hv' => hall v (List.mem_cons_of_mem x hv')

lemma sum_const_list (c : ℚ) :
    ∀ (l : List ℚ), (∀ v ∈ l, v = c) → l.sum = (l.length : ℚ) * c := by
  intro l
  induction l with
  | nil => intro _; simp
  | cons x t ih =>
    intro h
    rw [List.sum_cons, h x (List.mem_cons_self x t),
      ih fun v hv => h v (List.mem_cons_of_mem x hv), List.length_cons]
    push_cast
    ring

lemma mean_const (values : List ℚ) (c : ℚ) (hv : values ≠ [])
    (hall : ∀ v ∈ values, v = c) : mean values = c := by
  have hlen : (values.length : ℚ) ≠ 0 :=
    Nat.cast_ne_zero.mpr fun h0 => hv (List.length_eq_zero.mp h0)
  unfold mean
  rw [sum_const_list c values hall, mul_div_cancel_left₀ c hlen]

lemma argminAux_replicate (v c : ℚ) :
    ∀ (k i best : Nat), argminAux v (List.replicate k c) i best |v - c| = best := by
  intro k
  induction k with
  | zero => intro i best; rfl
  | succ k ih =>
    intro i best
    rw [List.replicate_succ]
    simp only [argminAux]
    rw [if_neg (lt_irrefl |v - c|)]
    exact ih (i + 1) best

lemma argminAbs_replicate (v c : ℚ) (n : Nat) (hn : 0 < n) :
    argminAbs v (List.replicate n c) = 0 := by
  match n, hn with
  | k + 1, _ =>
    rw [List.replicate_succ]
    simp only [argminAbs]
    exact argminAux_replicate v c k 1 0

lemma initSeeds_const (values : List ℚ) (c : ℚ) (n : Nat) (d : Nat → ℚ)
    (hv : values ≠ []) (hall : ∀ v ∈ values, v = c) :
    initSeeds values n "random" d = List.replicate n c := by
  unfold initSeeds
  rw [if_neg (by decide)]
  simp only [listMin_const values c hv hall, listMax_const values c hv hall]
  have h1 : ∀ b ∈ (List.range n).map fun i => c + (c - c) * d i, b = c := by
    intro b hb
    obtain ⟨i, _, rfl⟩ := List.mem_map.mp hb
    ring
  have h2 := List.eq_replicate_of_mem h1
  rwa [List.length_map, List.length_range] at h2

lemma voronoiMembers_replicate_zero (values : List ℚ) (c : ℚ) (n : Nat)
    (hn : 0 < n) :
    voronoiMembers values (List.replicate n c) 0 = values := by
  unfold voronoiMembers
  apply List.filter_eq_self.mpr
  intro a _
  simp [argminAbs_replicate a c n hn]

lemma voronoiMembers_replicate_pos (values : List ℚ) (c : ℚ) (n s : Nat)
    (hn : 0 < n) (hs : s ≠ 0) :
    voronoiMembers values (List.replicate n c) s = [] := by
  unfold voronoiMembers
  apply List.filter_eq_nil_iff.mpr
  intro a _
  simp only [argminAbs_replicate a c n hn, beq_iff_eq]
  exact fun h => hs h.symm

lemma lloydMoved_replicate (values : List ℚ) (c : ℚ) (n : Nat)
    (hv : values ≠ []) (hall : ∀ v ∈ values, v = c) (hn : 0 < n) :
    lloydMoved values (List.replicate n c) = false := by
  apply List.any_eq_false.mpr
  intro s hsmem
  by_cases h0 : s = 0
  · subst h0
    simp only [voronoiMembers_replicate_zero values c n hn]
    rw [mean_const values c hv hall, getD_replicate c 0 hn]
    simp
  · simp only [voronoiMembers_replicate_pos values c n s hn h0]
    simp

lemma lloydIter_replicate (values : List ℚ) (c : ℚ) (n k : Nat)
    (hv : values ≠ []) (hall : ∀ v ∈ values, v = c) (hn : 0 < n) :
    lloydIter values k (List.replicate n c) = List.replicate n c :=
  lloydIter_fixed values _ (lloydMoved_replicate values c n hv hall hn) k

lemma buildClusters_all_zero (values : List ℚ) (n : Nat) (hn : 0 < n)
    (f : ℚ → Nat) (hf : ∀ v ∈ values, f v = 0) :
    buildClusters n (values.zip (values.map f))
      = values :: List.replicate (n - 1) [] := by
  apply List.ext_getElem
  · rw [buildClusters_length]
    simp only [List.length_cons, List.length_replicate]
    omega
  · intro i h1 h2
    rw [← List.getD_eq_getElem _ [] h1, ← List.getD_eq_getElem _ [] h2]
    have hi : i < n := by rwa [buildClusters_length] at h1
    rw [buildClusters_zip_getD f n values hi]
    cases i with
    | zero =>
      simp only [List.getD_cons_zero]
      apply List.filter_eq_self.mpr
      intro a ha
      simp [hf a ha]
    | succ j =>
      simp only [List.getD_cons_succ]
      rw [getD_replicate ([] : List ℚ) ([] : List ℚ) (show j < n - 1 by omega)]
      apply List.filter_eq_nil_iff.mpr
      intro a ha
      simp only [beq_iff_eq, hf a ha]
      omega

/-! ### The claims -/

/-- Claim C1: for every non-empty `values` and every `n_seeds ≥ 1` (any
`lloyd_iters`, any `init_method`, any random draws), the returned result
has exactly `n_seeds` clusters (some possibly empty), the clusters' total
length equals the input length, and the multiset union of the clusters is
the multiset of the input — every input value lands in exactly one
cluster, none lost or duplicated.  (That a result is returned at all under
these hypotheses is part of claim C5's theorem.) -/
theorem claim_C1 (values : List ℚ) (n l : ℤ) (m : String) (d : Nat → ℚ)
    (clusters : List (List ℚ)) (seeds : List ℚ)
    (hv : values ≠ []) (hn : 1 ≤ n)
    (h : partition_voronoi values n l m d = some (clusters, seeds)) :
    clusters.length = n.toNat ∧
    (∑ s ∈ Finset.range n.toNat, (clusters.getD s []).length) = values.length ∧
    (∑ s ∈ Finset.range n.toNat, ((clusters.getD s [] : List ℚ) : Multiset ℚ))
      = (values : Multiset ℚ) := by
  have hn' : ¬n ≤ 0 := by omega
  have hv' : values.length ≠ 0 := fun h0 => hv (List.length_eq_zero.mp h0)
  rw [partition_voronoi_pos values n l m d hn' hv'] at h
  injection h with h
  injection h with hc hsd
  subst hc
  subst hsd
  set seeds0 := lloydIter values l.toNat (initSeeds values n.toNat m d) with hs0
  have hslen : seeds0.length = n.toNat := by
    rw [hs0, lloydIter_length, initSeeds_length]
  have hne : seeds0 ≠ [] := by
    intro hnil
    rw [hnil] at hslen
    simp only [List.length_nil] at hslen
    omega
  have hf : ∀ v ∈ values, argminAbs v seeds0 < n.toNat :=
    fun v _ => hslen ▸ argminAbs_lt v seeds0 hne
  have hms : (∑ s ∈ Finset.range n.toNat,
      (((buildClusters n.toNat
          (values.zip (values.map fun v => argminAbs v seeds0))).getD s []
        : List ℚ) : Multiset ℚ))
      = (values : Multiset ℚ) := by
    rw [Finset.sum_congr rfl fun s hs =>
      congrArg (fun t : List ℚ => (t : Multiset ℚ))
        (buildClusters_zip_getD _ _ _ (Finset.mem_range.mp hs))]
    exact filter_partition_multiset _ _ values hf
  refine ⟨buildClusters_length _ _, ?_, hms⟩
  have hcard := congrArg Multiset.card hms
  rw [card_finset_sum] at hcard
  simpa [Multiset.coe_card] using hcard

/-- Witness for C1 at `values = [1, 2, 3]`, `n_seeds = 2`, quantile init,
no Lloyd iterations: the clusters are `[[1, 2], [3]]`. -/
theorem claim_C1_witness :
    ([[1, 2], [3]] : List (List ℚ)).length = (2 : ℤ).toNat ∧
    (∑ s ∈ Finset.range (2 : ℤ).toNat,
      (([[1, 2], [3]] : List (List ℚ)).getD s []).length)
      = ([1, 2, 3] : List ℚ).length ∧
    (∑ s ∈ Finset.range (2 : ℤ).toNat,
      ((([[1, 2], [3]] : List (List ℚ)).getD s [] : List ℚ) : Multiset ℚ))
      = (([1, 2, 3] : List ℚ) : Multiset ℚ) :=
  claim_C1 [1, 2, 3] 2 0 "quantile" (fun _ => 0) [[1, 2], [3]] [5/3, 7/3]
    (by decide) (by decide) (by with_unfolding_all decide)

/-- Claim C7: every returned cluster is exactly the subsequence of the
input consisting of the values assigned (by `argminAbs` against the final
seeds) to that cluster index: the original values, unmodified, in their
original relative order. -/
theorem claim_C7 (values : List ℚ) (n l : ℤ) (m : String) (d : Nat → ℚ)
    (clusters : List (List ℚ)) (seeds : List ℚ) (s : Nat)
    (hv : values ≠ []) (hn : 1 ≤ n) (hs : s < n.toNat)
    (h : partition_voronoi values n l m d = some (clusters, seeds)) :
    clusters.getD s [] = values.filter (fun v => argminAbs v seeds == s) ∧
    (clusters.getD s []).Sublist values := by
  have hn' : ¬n ≤ 0 := by omega
  have hv' : values.length ≠ 0 := fun h0 => hv (List.length_eq_zero.mp h0)
  rw [partition_voronoi_pos values n l m d hn' hv'] at h
  injection h with h
  injection h with hc hsd
  subst hc
  subst hsd
  refine ⟨buildClusters_zip_getD _ _ _ hs, ?_⟩
  rw [buildClusters_zip_getD _ _ _ hs]
  exact List.filter_sublist values

/-- Witness for C7 at `values = [1, 2, 3]`, `n_seeds = 2`, quantile init,
cluster index 0. -/
theorem claim_C7_witness :
    ([[1, 2], [3]] : List (List ℚ)).getD 0 []
      = ([1, 2, 3] : List ℚ).filter (fun v => argminAbs v [(5 : ℚ)/3, 7/3] == 0) ∧
    (([[1, 2], [3]] : List (List ℚ)).getD 0 []).Sublist ([1, 2, 3] : List ℚ) :=
  claim_C7 [1, 2, 3] 2 0 "quantile" (fun _ => 0) [[1, 2], [3]] [(5 : ℚ)/3, 7/3] 0
    (by decide) (by decide) (by decide) (by with_unfolding_all decide)

/-- Claim C8: with `init_method = "random"` and a non-empty input whose
values are all equal to `c` (min = max), no degenerate-interval error
occurs — every seed equals `c` regardless of the random draws — and by the
lowest-index tie-break every input value lands in cluster 0, all other
clusters empty. -/
theorem claim_C8 (values : List ℚ) (c : ℚ) (n l : ℤ) (d : Nat → ℚ)
    (hv : values ≠ []) (hall : ∀ v ∈ values, v = c) (hn : 1 ≤ n) :
    partition_voronoi values n l "random" d =
      some (values :: List.replicate (n.toNat - 1) [],
        List.replicate n.toNat c) := by
  have hn' : ¬n ≤ 0 := by omega
  have hv' : values.length ≠ 0 := fun h0 => hv (List.length_eq_zero.mp h0)
  have hnn : 0 < n.toNat := by omega
  rw [partition_voronoi_pos values n l "random" d hn' hv',
    initSeeds_const values c n.toNat d hv hall,
    lloydIter_replicate values c n.toNat l.toNat hv hall hnn,
    buildClusters_all_zero values n.toNat hnn _
      fun v _ => argminAbs_replicate v c n.toNat hnn]

/-- Witness for C8: the spec's concrete scenario `values = [5, 5, 5, 5]`,
`n_seeds = 2`, random init: both seeds equal 5, every value lands in
cluster 0 and cluster 1 is empty. -/
theorem claim_C8_witness :
    partition_voronoi [5, 5, 5, 5] 2 3 "random" (fun _ => 1/3) =
      some (([5, 5, 5, 5] : List ℚ) :: List.replicate ((2 : ℤ).toNat - 1) [],
        List.replicate (2 : ℤ).toNat 5) :=
  claim_C8 [5, 5, 5, 5] 5 2 3 (fun _ => 1/3) (by decide) (by decide) (by decide)



/-- Claim C2: in both the per-iteration assignment and the final assignment
(both are `np.abs(arr[:, None] - seeds[None, :]).argmin(axis=1)`, embedded
as `argminAbs`), each value goes to a seed index minimizing `|value - seed|`,
and on ties to the lowest such index: the chosen index is in range, its
distance is at most the distance to any seed `j`, and every seed strictly
before it has strictly larger distance.  This holds for every value and
every nonempty seed configuration. -/
theorem claim_C2 (v : ℚ) (seeds : List ℚ) (j : Nat) (hne : seeds ≠ [])
    (hj : j < seeds.length) :
    argminAbs v seeds < seeds.length ∧
    |v - seeds.getD (argminAbs v seeds) 0| ≤ |v - seeds.getD j 0| ∧
    (j < argminAbs v seeds →
      |v - seeds.getD (argminAbs v seeds) 0| < |v - seeds.getD j 0|) := by
  obtain ⟨h1, h2, h3⟩ := argminAbs_spec v seeds hne
  exact ⟨h1, h2 j hj, fun hji => h3 j hji⟩

/-- Witness for C2 at `v = 2`, `seeds = [5/3, 7/3]`, `j = 1` (a tie between
the two seeds: index 0 wins). -/
theorem claim_C2_witness :
    argminAbs 2 [(5 : ℚ)/3, 7/3] < ([(5 : ℚ)/3, 7/3] : List ℚ).length ∧
    |(2 : ℚ) - ([(5 : ℚ)/3, 7/3] : List ℚ).getD (argminAbs 2 [(5 : ℚ)/3, 7/3]) 0|
      ≤ |(2 : ℚ) - ([(5 : ℚ)/3, 7/3] : List ℚ).getD 1 0| ∧
    (1 < argminAbs 2 [(5 : ℚ)/3, 7/3] →
      |(2 : ℚ) - ([(5 : ℚ)/3, 7/3] : List ℚ).getD (argminAbs 2 [(5 : ℚ)/3, 7/3]) 0|
        < |(2 : ℚ) - ([(5 : ℚ)/3, 7/3] : List ℚ).getD 1 0|) :=
  claim_C2 2 [(5 : ℚ)/3, 7/3] 1 (by decide) (by decide)

/-- Claim C3: in every Lloyd pass, a seed index with at least one assigned
value is recomputed as the arithmetic mean of its assigned values, a seed
with no assigned values keeps its previous position, and no seed is
removed (the seed list keeps its length). -/
theorem claim_C3 (arr seeds : List ℚ) (s : Nat) (hs : s < seeds.length) :
    (lloydNewSeeds arr seeds).length = seeds.length ∧
    (voronoiMembers arr seeds s ≠ [] →
      (lloydNewSeeds arr seeds).getD s 0 = mean (voronoiMembers arr seeds s)) ∧
    (voronoiMembers arr seeds s = [] →
      (lloydNewSeeds arr seeds).getD s 0 = seeds.getD s 0) := by
  refine ⟨lloydNewSeeds_length arr seeds, ?_, ?_⟩
  · intro h
    rw [getD_lloydNewSeeds arr seeds hs,
      if_neg (by simpa [List.isEmpty_iff] using h)]
  · intro h
    rw [getD_lloydNewSeeds arr seeds hs, if_pos (by simpa [List.isEmpty_iff] using h)]

/-- Witness for C3 at `arr = [1, 4]`, `seeds = [1, 5]`, `s = 1`: the second
seed owns `[4]` and moves to its mean `4`. -/
theorem claim_C3_witness :
    (lloydNewSeeds [1, 4] [1, 5]).getD 1 0 = mean (voronoiMembers [1, 4] [1, 5] 1) :=
  (claim_C3 [1, 4] [1, 5] 1 (by decide)).2.1 (by with_unfolding_all decide)

/-- Claim C4: the relaxation loop stops early exactly when a pass moves no
seed (`moved = false` is equivalent to the pass returning the seeds
unchanged), such a configuration is a fixed point (any further number of
iterations leaves the seeds unchanged), and each loop step is literally
"recurse on the new seeds if moved, else stop". -/
theorem claim_C4 (arr seeds : List ℚ) (k : Nat) :
    (lloydMoved arr seeds = false ↔ lloydNewSeeds arr seeds = seeds) ∧
    (lloydMoved arr seeds = false → lloydIter arr k seeds = seeds) ∧
    lloydIter arr (k + 1) seeds =
      (if lloydMoved arr seeds then lloydIter arr k (lloydNewSeeds arr seeds)
       else lloydNewSeeds arr seeds) :=
  ⟨lloydMoved_eq_false_iff arr seeds,
   fun h => lloydIter_fixed arr seeds h k,
   rfl⟩

/-- Witness for C4 at `arr = [1, 3]`, `seeds = [2]`, `k = 7`: the single
seed is already the mean of all values, so seven further iterations leave
it unchanged. -/
theorem claim_C4_witness : lloydIter [1, 3] 7 [2] = [2] :=
  (claim_C4 [1, 3] [2] 7).2.1 (by with_unfolding_all decide)

/-- Claim C5: `partition_voronoi` raises the invalid-argument error
(modelled by `none`) if and only if `n_seeds ≤ 0`; for every `n_seeds ≥ 1`
and any values it returns a well-defined result without raising. -/
theorem claim_C5 (values : List ℚ) (n l : ℤ) (m : String) (d : Nat → ℚ) :
    (partition_voronoi values n l m d = none ↔ n ≤ 0) ∧
    (1 ≤ n → (partition_voronoi values n l m d).isSome = true) := by
  refine ⟨⟨?_, ?_⟩, ?_⟩
  · intro h
    by_contra hn
    have := partition_voronoi_isSome values n l m d hn
    rw [h] at this
    simp at this
  · intro h
    simp [partition_voronoi, h]
  · intro h
    exact partition_voronoi_isSome values n l m d (by omega)

/-- Witness for C5 at `values = [1]`, `n_seeds = -2`: the call fails. -/
theorem claim_C5_witness :
    partition_voronoi [1] (-2) 0 "x" (fun _ => 0) = none :=
  (claim_C5 [1] (-2) 0 "x" fun _ => 0).1.mpr (by decide)

/-- Claim C6: for every `n_seeds ≥ 1`, every `lloyd_iters` and every
`init_method`, the empty input succeeds and yields `n_seeds` empty clusters
and an empty seed sequence; neither initialization nor relaxation runs. -/
theorem claim_C6 (n l : ℤ) (m : String) (d : Nat → ℚ) (hn : 1 ≤ n) :
    partition_voronoi [] n l m d = some (List.replicate n.toNat [], []) := by
  have hn' : ¬n ≤ 0 := by omega
  simp [partition_voronoi, hn']

/-- Witness for C6 at `n_seeds = 3`, `lloyd_iters = 5`, quantile init. -/
theorem claim_C6_witness :
    partition_voronoi [] 3 5 "quantile" (fun _ => 0)
      = some (List.replicate (3 : ℤ).toNat [], []) :=
  claim_C6 3 5 "quantile" (fun _ => 0) (by decide)

/-- Claim C9: every `init_method` other than `"quantile"` (arbitrary
unrecognized strings included) behaves identically to `"random"`: same
random draws give the same seeds and clusters, with no error. -/
theorem claim_C9 (values : List ℚ) (n l : ℤ) (m : String) (d : Nat → ℚ)
    (hm : m ≠ "quantile") :
    partition_voronoi values n l m d = partition_voronoi values n l "random" d := by
  have hinit : initSeeds values n.toNat m d = initSeeds values n.toNat "random" d := by
    unfold initSeeds
    rw [if_neg hm, if_neg (by decide)]
  unfold partition_voronoi
  rw [hinit]

/-- Witness for C9 at `init_method = "foo"`. -/
theorem claim_C9_witness :
    partition_voronoi [1, 2, 3] 2 1 "foo" (fun _ => 1/2)
      = partition_voronoi [1, 2, 3] 2 1 "random" (fun _ => 1/2) :=
  claim_C9 [1, 2, 3] 2 1 "foo" (fun _ => 1/2) (by decide)

/-- Claim C10: a negative `lloyd_iters` raises no error — the relaxation
loop body runs zero times — and the result coincides with
`lloyd_iters = 0`. -/
theorem claim_C10 (values : List ℚ) (n l : ℤ) (m : String) (d : Nat → ℚ)
    (hl : l < 0) (hn : 1 ≤ n) :
    partition_voronoi values n l m d = partition_voronoi values n 0 m d ∧
    (partition_voronoi values n l m d).isSome = true := by
  constructor
  · have h0 : l.toNat = 0 := Int.toNat_of_nonpos (le_of_lt hl)
    unfold partition_voronoi
    simp only [h0, Int.toNat_zero]
  · exact partition_voronoi_isSome values n l m d (by omega)

/-- Witness for C10 at `lloyd_iters = -7`. -/
theorem claim_C10_witness :
    partition_voronoi [1, 2] 2 (-7) "quantile" (fun _ => 0)
      = partition_voronoi [1, 2] 2 0 "quantile" (fun _ => 0) ∧
    (partition_voronoi [1, 2] 2 (-7) "quantile" (fun _ => 0)).isSome = true :=
  claim_C10 [1, 2] 2 (-7) "quantile" (fun _ => 0) (by decide) (by decide)

end Voronoi
